import Mathlib

/-!
Shallow embedding of the ACI transport layer
(`libraries/BLE/hal_aci_tl.cpp`) from the ble-sdk-arduino repository.

Bytes are modelled as `Nat` (the C code stores `uint8_t` values, so on
inputs reachable from the real program every byte is below 256; the
arithmetic performed by the code — `+ 1`, `- 1` after a zero test, `%
ACI_QUEUE_SIZE` on indices below the queue size — never overflows or
wraps, so plain `Nat` arithmetic coincides with the C semantics on that
domain).  Fixed-size C byte arrays are modelled as total functions
`Nat → Nat`; `memcpy` of a prefix becomes a pointwise merge of the two
functions.  The queue capacity `ACI_QUEUE_SIZE` and the maximum payload
length `HAL_ACI_MAX_LENGTH` live in a header that is not part of the
packaged source, so every definition is parametric in the capacity `N`
and the maximum length `maxLen`.
-/

/-- Mirror of the C struct `hal_aci_data_t`: a status byte plus a byte
buffer whose slot 0 holds the declared payload length. -/
structure hal_aci_data_t where
  status_byte : Nat
  buffer : Nat → Nat

/-- Mirror of the C struct `aci_queue_t`: `head`/`tail` indices plus an
array of `ACI_QUEUE_SIZE` packet slots, modelled as a total function. -/
structure aci_queue_t where
  head : Nat
  tail : Nat
  aci_data : Nat → hal_aci_data_t

/-- The all-zero packet: C globals have static storage and start zeroed. -/
def zeroData : hal_aci_data_t :=
  { status_byte := 0, buffer := fun _ => 0 }

/-- The all-zero queue, the state of the global `aci_tx_q`/`aci_rx_q`
before any code runs. -/
def zeroQueue : aci_queue_t :=
  { head := 0, tail := 0, aci_data := fun _ => zeroData }

/-- Model of `memcpy(dst, src, n)` on byte buffers: the first `n` bytes
come from `src`, the rest keep their old `dst` contents. -/
def memcpyBuf (dst src : Nat → Nat) (n : Nat) : Nat → Nat :=
  fun i => if i < n then src i else dst i

/-- Embedding of `m_aci_q_init`: resets `head` and `tail` to 0 and zeroes
bytes 0 and 1 of every slot's buffer (the C loop body); other bytes and
the status byte of each slot are untouched. -/
def m_aci_q_init (N : Nat) (q : aci_queue_t) : aci_queue_t :=
  { head := 0
    tail := 0
    aci_data := fun i =>
      if i < N then
        { q.aci_data i with
            buffer := fun j => if j = 0 then 0 else if j = 1 then 0 else (q.aci_data i).buffer j }
      else q.aci_data i }

/-- Embedding of `m_aci_q_enqueue`: fails (queue unchanged) when
advancing `tail` would meet `head`; otherwise zeroes the slot's status
byte, copies `length + 1` bytes of `p` into the slot at `tail` and
advances `tail` modulo `N`.  Returns the C function's `bool` next to the
updated queue. -/
def m_aci_q_enqueue (N : Nat) (q : aci_queue_t) (p : hal_aci_data_t) : Bool × aci_queue_t :=
  let next := (q.tail + 1) % N
  let length := p.buffer 0
  if next = q.head then
    (false, q)
  else
    let slot0 := q.aci_data q.tail
    let slot := { status_byte := 0,
                  buffer := memcpyBuf slot0.buffer p.buffer (length + 1) : hal_aci_data_t }
    (true, { q with
               aci_data := fun i => if i = q.tail then slot else q.aci_data i
               tail := next })

/-- Embedding of `m_aci_q_dequeue`: on an empty queue returns `none` and
leaves the queue unchanged; otherwise copies out the whole slot at
`head` and advances `head` modulo `N`. -/
def m_aci_q_dequeue (N : Nat) (q : aci_queue_t) : aci_queue_t × Option hal_aci_data_t :=
  if q.head = q.tail then
    (q, none)
  else
    ({ q with head := (q.head + 1) % N }, some (q.aci_data q.head))

/-- Embedding of `m_aci_q_peek`: like dequeue but never advances `head`. -/
def m_aci_q_peek (q : aci_queue_t) : Option hal_aci_data_t :=
  if q.head = q.tail then none else some (q.aci_data q.head)

/-- Embedding of `m_aci_q_is_empty`. -/
def m_aci_q_is_empty (q : aci_queue_t) : Bool :=
  q.head == q.tail

/-- Embedding of `m_aci_q_is_full` (the interrupt suppression around the
check has no effect in this sequential model). -/
def m_aci_q_is_full (N : Nat) (q : aci_queue_t) : Bool :=
  (q.tail + 1) % N == q.head

/-- Number of packets currently stored: distance from `head` to `tail`
modulo the capacity. -/
def qsize (N : Nat) (q : aci_queue_t) : Nat :=
  (q.tail + N - q.head) % N

/-- Well-formedness of a queue state: both indices are in range.  Every
queue the program ever builds satisfies this. -/
def QWf (N : Nat) (q : aci_queue_t) : Prop :=
  q.head < N ∧ q.tail < N

/-- The stored contents in dequeue order, oldest first. -/
def qList (N : Nat) (q : aci_queue_t) : List hal_aci_data_t :=
  (List.range (qsize N q)).map (fun k => q.aci_data ((q.head + k) % N))

/-- Agreement of a stored slot with the packet that was enqueued into it:
the length byte and all bytes up to the declared length coincide (bytes
beyond the declared length are not copied by `m_aci_q_enqueue`). -/
def Agrees (s p : hal_aci_data_t) : Prop :=
  ∀ j, j ≤ p.buffer 0 → s.buffer j = p.buffer j


/-- One abstract queue operation: an enqueue of a given packet or a
dequeue (with the popped packet discarded, as callers may do). -/
inductive QOp where
  | enq : hal_aci_data_t → QOp
  | deq : QOp

/-- One step of a queue-operation sequence, also counting successful
enqueues and successful dequeues. -/
def qopStep (N : Nat) : aci_queue_t × Nat × Nat → QOp → aci_queue_t × Nat × Nat
  | (q, e, d), QOp.enq p =>
      let r := m_aci_q_enqueue N q p
      (r.2, if r.1 then e + 1 else e, d)
  | (q, e, d), QOp.deq =>
      let r := m_aci_q_dequeue N q
      (r.1, e, if (r.2).isSome then d + 1 else d)

/-- Run a sequence of queue operations from a freshly initialised queue,
returning the final queue together with the numbers of successful
enqueues and successful dequeues. -/
def runOps (N : Nat) (ops : List QOp) : aci_queue_t × Nat × Nat :=
  ops.foldl (qopStep N) (m_aci_q_init N zeroQueue, 0, 0)

/-- Invariant tying the success counters to the queue occupancy. -/
def QInv (N : Nat) (s : aci_queue_t × Nat × Nat) : Prop :=
  QWf N s.1 ∧ s.2.2 ≤ s.2.1 ∧ s.2.1 - s.2.2 = qsize N s.1

/-- The one configuration field of `aci_pins_t` the transport logic
branches on: whether the link runs in edge-interrupt mode. -/
structure aci_pins_t where
  interface_is_interrupt : Bool

/-- Edge-interrupt configuration. -/
def edgePins : aci_pins_t :=
  { interface_is_interrupt := true }

/-- Host-polled configuration. -/
def polledPins : aci_pins_t :=
  { interface_is_interrupt := false }

/-- The mutable globals of `hal_aci_tl.cpp` relevant to the claims: the
two queues, the `received_data` buffer, the level of the REQN line
(`reqn_low = true` means the request line is asserted), whether the
RDYN-line interrupt is masked in `EIMSK` (`eimsk_masked = true` means
the `EIMSK &= ~0x2` statement has disabled it), and whether the code has
entered the fatal `while(1)` loop (`halted`; once set, nothing further
executes). -/
structure TLState where
  aci_tx_q : aci_queue_t
  aci_rx_q : aci_queue_t
  received_data : hal_aci_data_t
  reqn_low : Bool
  eimsk_masked : Bool
  halted : Bool

/-- The byte-exchange loop at the end of `hal_aci_tl_poll_get`: runs
`fuel` iterations, storing the byte received on the `spiIdx`-th SPI
exchange into `buffer[byte_cnt + 1]`.  Returns the final receive buffer
together with the total number of SPI exchanges performed.  The device
side of `SPI.transfer` is modelled by `dev`, mapping the index of an
exchange to the byte the device returns on it. -/
def pollLoop (dev : Nat → Nat) : (Nat → Nat) → Nat → Nat → Nat → (Nat → Nat) × Nat
  | buf, _, spiIdx, 0 => (buf, spiIdx)
  | buf, byte_cnt, spiIdx, Nat.succ fuel =>
      pollLoop dev (fun i => if i = byte_cnt + 1 then dev spiIdx else buf i)
        (byte_cnt + 1) (spiIdx + 1) fuel

/-- Embedding of `hal_aci_tl_poll_get`: dequeues one outgoing packet (or
builds a null packet in the local `data_to_send`, whose uninitialised
stack contents are modelled by `scratch`), exchanges the two header
bytes, negotiates `max_bytes` exactly as the source does, runs the
transfer loop, and re-asserts REQN iff the outgoing queue is still
non-empty.  Also returns the total number of `spi_readwrite` calls
performed during the transaction. -/
def hal_aci_tl_poll_get (maxLen N : Nat) (dev : Nat → Nat) (scratch : hal_aci_data_t)
    (s : TLState) : TLState × Nat :=
  let dq := m_aci_q_dequeue N s.aci_tx_q
  let data_to_send : hal_aci_data_t :=
    match dq.2 with
    | some d => d
    | none => { status_byte := 0, buffer := fun i => if i = 0 then 0 else scratch.buffer i }
  let rstatus := dev 0
  let rbuf0 := dev 1
  let max_bytes0 :=
    if data_to_send.buffer 0 = 0 then rbuf0
    else if rbuf0 > data_to_send.buffer 0 - 1 then rbuf0 else data_to_send.buffer 0 - 1
  let max_bytes := if max_bytes0 > maxLen then maxLen else max_bytes0
  let lp := pollLoop dev (fun i => if i = 0 then rbuf0 else s.received_data.buffer i) 0 2 max_bytes
  ({ s with
      aci_tx_q := dq.1
      received_data := { status_byte := rstatus, buffer := lp.1 }
      reqn_low := !(m_aci_q_is_empty dq.1) }, lp.2)

/-- Embedding of `m_rdy_line_handle`: runs the transaction engine, then
enqueues the received packet into the incoming queue when its length
byte is positive; a failed enqueue is the fatal `while(1)` branch
(modelled by setting `halted`); after a successful enqueue that leaves
the incoming queue full, edge-interrupt mode masks the RDYN interrupt. -/
def m_rdy_line_handle (maxLen N : Nat) (dev : Nat → Nat) (scratch : hal_aci_data_t)
    (pins : aci_pins_t) (s : TLState) : TLState :=
  let s1 := (hal_aci_tl_poll_get maxLen N dev scratch s).1
  let p := s1.received_data
  if p.buffer 0 > 0 then
    let enq := m_aci_q_enqueue N s1.aci_rx_q p
    if enq.1 then
      let s2 := { s1 with aci_rx_q := enq.2 }
      if m_aci_q_is_full N s2.aci_rx_q then
        if pins.interface_is_interrupt then { s2 with eimsk_masked := true } else s2
      else s2
    else { s1 with halted := true }
  else s1

/-- Embedding of `m_aci_device_query` (host-polled mode only): when the
RDYN line is low, service the transaction; otherwise assert REQN when
there are commands waiting and the event queue has room. -/
def m_aci_device_query (maxLen N : Nat) (dev : Nat → Nat) (scratch : hal_aci_data_t)
    (pins : aci_pins_t) (rdynLow : Bool) (s : TLState) : TLState :=
  if rdynLow then
    m_rdy_line_handle maxLen N dev scratch pins s
  else if !m_aci_q_is_empty s.aci_tx_q && !m_aci_q_is_full N s.aci_rx_q then
    { s with reqn_low := true }
  else s

/-- Embedding of `hal_aci_tl_event_get`: in host-polled mode first runs
one device query; then dequeues from the incoming queue, and when the
dequeue drains a previously-full queue in edge-interrupt mode, unmasks
the RDYN interrupt.  A `halted` state executes nothing further. -/
def hal_aci_tl_event_get (maxLen N : Nat) (dev : Nat → Nat) (scratch : hal_aci_data_t)
    (pins : aci_pins_t) (rdynLow : Bool) (s : TLState) : TLState × Option hal_aci_data_t :=
  let s0 := if pins.interface_is_interrupt then s
            else m_aci_device_query maxLen N dev scratch pins rdynLow s
  if s0.halted then (s0, none)
  else
    let was_full := m_aci_q_is_full N s0.aci_rx_q
    let dq := m_aci_q_dequeue N s0.aci_rx_q
    match dq.2 with
    | some d =>
        let s1 := { s0 with aci_rx_q := dq.1 }
        (if was_full && pins.interface_is_interrupt then { s1 with eimsk_masked := false }
         else s1, some d)
    | none => (s0, none)

/-- Embedding of `hal_aci_tl_event_peek`: like `hal_aci_tl_event_get`
but reads the head slot without consuming it and never touches the
interrupt mask. -/
def hal_aci_tl_event_peek (maxLen N : Nat) (dev : Nat → Nat) (scratch : hal_aci_data_t)
    (pins : aci_pins_t) (rdynLow : Bool) (s : TLState) : TLState × Option hal_aci_data_t :=
  let s0 := if pins.interface_is_interrupt then s
            else m_aci_device_query maxLen N dev scratch pins rdynLow s
  if s0.halted then (s0, none)
  else (s0, m_aci_q_peek s0.aci_rx_q)

/-- Embedding of `hal_aci_tl_send`: rejects a packet whose length byte
exceeds the maximum; otherwise enqueues it into the outgoing queue and
asserts REQN exactly when the enqueue succeeded. -/
def hal_aci_tl_send (maxLen N : Nat) (s : TLState) (p : hal_aci_data_t) : Bool × TLState :=
  let length := p.buffer 0
  if length > maxLen then
    (false, s)
  else
    let enq := m_aci_q_enqueue N s.aci_tx_q p
    if enq.1 then (true, { s with aci_tx_q := enq.2, reqn_low := true })
    else (false, s)

/-- Embedding of `m_aci_q_flush`: re-initialises both queues (the
interrupt suppression around it has no effect in this sequential
model). -/
def m_aci_q_flush (N : Nat) (s : TLState) : TLState :=
  { s with
      aci_tx_q := m_aci_q_init N s.aci_tx_q
      aci_rx_q := m_aci_q_init N s.aci_rx_q }

/-- The transport state right after `hal_aci_tl_init`: both queues
initialised, `received_data.buffer[0]` zeroed, REQN written high, the
RDYN interrupt attached (not masked), and not halted. -/
def hal_aci_tl_init_state (N : Nat) : TLState :=
  { aci_tx_q := m_aci_q_init N zeroQueue
    aci_rx_q := m_aci_q_init N zeroQueue
    received_data := zeroData
    reqn_low := false
    eimsk_masked := false
    halted := false }

/-- States reachable in edge-interrupt mode from `hal_aci_tl_init` under
the flow-control discipline: the RDYN handler fires only while the
RDYN interrupt is unmasked (a masked edge interrupt is latched, not
delivered), and the other transitions are the public API calls.  The
`dev` byte stream and the `scratch` stack contents of each transaction
are arbitrary. -/
inductive EdgeReach (maxLen N : Nat) : TLState → Prop where
  | start : EdgeReach maxLen N (hal_aci_tl_init_state N)
  | send (s : TLState) (p : hal_aci_data_t) : EdgeReach maxLen N s →
      EdgeReach maxLen N (hal_aci_tl_send maxLen N s p).2
  | handle (s : TLState) (dev : Nat → Nat) (scratch : hal_aci_data_t) :
      EdgeReach maxLen N s → s.eimsk_masked = false →
      EdgeReach maxLen N (m_rdy_line_handle maxLen N dev scratch edgePins s)
  | get (s : TLState) (dev : Nat → Nat) (scratch : hal_aci_data_t) (rdynLow : Bool) :
      EdgeReach maxLen N s →
      EdgeReach maxLen N (hal_aci_tl_event_get maxLen N dev scratch edgePins rdynLow s).1
  | peek (s : TLState) (dev : Nat → Nat) (scratch : hal_aci_data_t) (rdynLow : Bool) :
      EdgeReach maxLen N s →
      EdgeReach maxLen N (hal_aci_tl_event_peek maxLen N dev scratch edgePins rdynLow s).1
  | flush (s : TLState) : EdgeReach maxLen N s → EdgeReach maxLen N (m_aci_q_flush N s)

/-- Run `m_aci_q_enqueue` over a list of packets in order; the Boolean
is true when every single enqueue succeeded. -/
def enqRun (N : Nat) (q : aci_queue_t) : List hal_aci_data_t → aci_queue_t × Bool
  | [] => (q, true)
  | p :: ps =>
      let r := m_aci_q_enqueue N q p
      let rest := enqRun N r.2 ps
      (rest.1, r.1 && rest.2)

/-- Run `m_aci_q_dequeue` a given number of times, collecting each
call's result (`none` for a failed dequeue). -/
def deqRun (N : Nat) (q : aci_queue_t) : Nat → List (Option hal_aci_data_t)
  | 0 => []
  | Nat.succ k =>
      let r := m_aci_q_dequeue N q
      r.2 :: deqRun N r.1 k

/-- A length-1 packet with payload byte 5, used as a concrete test
vector. -/
def pktA : hal_aci_data_t :=
  { status_byte := 0, buffer := fun i => if i = 0 then 1 else if i = 1 then 5 else 0 }

/-- A length-1 packet with payload byte 7, used as a concrete test
vector. -/
def pktB : hal_aci_data_t :=
  { status_byte := 0, buffer := fun i => if i = 0 then 1 else if i = 1 then 7 else 0 }

/-- A concrete well-formed, non-empty, non-full queue of capacity 4
holding exactly the packet `pktA`. -/
def oneElemQueue : aci_queue_t :=
  { head := 0, tail := 1, aci_data := fun i => if i = 0 then pktA else zeroData }

-- ===== definitions continue below; theorems follow =====
section QueueLemmas

/-- Reduction of `a % N` to a subtraction when `a < 2 * N`. -/
theorem mod_small_cases (N a : Nat) (h : a < 2 * N) :
    a % N = if a < N then a else a - N := by
  by_cases h1 : a < N
  · simp [h1, Nat.mod_eq_of_lt]
  · have hN : N ≤ a := Nat.le_of_not_lt h1
    have h2 : a - N < N := by omega
    simp [h1]
    rw [Nat.mod_eq_sub_mod hN, Nat.mod_eq_of_lt h2]

theorem qsize_lt (N : Nat) (q : aci_queue_t) (hN : 0 < N) : qsize N q < N :=
  Nat.mod_lt _ hN

theorem qsize_eq (N : Nat) (q : aci_queue_t) (hq : QWf N q) :
    qsize N q = if q.head ≤ q.tail then q.tail - q.head else q.tail + N - q.head := by
  obtain ⟨h1, h2⟩ := hq
  unfold qsize
  rw [mod_small_cases N _ (by omega)]
  split <;> split <;> omega

theorem is_empty_iff (N : Nat) (q : aci_queue_t) (hq : QWf N q) :
    m_aci_q_is_empty q = true ↔ qsize N q = 0 := by
  obtain ⟨h1, h2⟩ := hq
  unfold m_aci_q_is_empty qsize
  rw [beq_iff_eq, mod_small_cases N _ (by omega)]
  split <;> omega

theorem is_full_iff (N : Nat) (q : aci_queue_t) (hN : 2 ≤ N) (hq : QWf N q) :
    m_aci_q_is_full N q = true ↔ qsize N q = N - 1 := by
  obtain ⟨h1, h2⟩ := hq
  unfold m_aci_q_is_full qsize
  rw [beq_iff_eq, mod_small_cases N (q.tail + 1) (by omega),
    mod_small_cases N _ (by omega)]
  split <;> split <;> omega

theorem head_add_qsize (N : Nat) (q : aci_queue_t) (hq : QWf N q) :
    (q.head + qsize N q) % N = q.tail := by
  obtain ⟨h1, h2⟩ := hq
  rw [qsize_eq N q ⟨h1, h2⟩]
  by_cases h : q.head ≤ q.tail
  · simp only [if_pos h]
    rw [mod_small_cases N _ (by omega)]
    split <;> omega
  · simp only [if_neg h]
    rw [mod_small_cases N _ (by omega)]
    split <;> omega

theorem head_add_lt_ne_tail (N : Nat) (q : aci_queue_t) (hq : QWf N q)
    (k : Nat) (hk : k < qsize N q) : (q.head + k) % N ≠ q.tail := by
  obtain ⟨h1, h2⟩ := hq
  have hs := qsize_eq N q ⟨h1, h2⟩
  rw [mod_small_cases N _ (by have := qsize_lt N q (by omega); omega)]
  by_cases h : q.head ≤ q.tail <;> simp [h] at hs <;> split <;> omega

theorem enq_fail_iff (N : Nat) (q : aci_queue_t) (p : hal_aci_data_t) :
    (m_aci_q_enqueue N q p).1 = false ↔ m_aci_q_is_full N q = true := by
  unfold m_aci_q_enqueue m_aci_q_is_full
  dsimp only
  split <;> simp_all [beq_iff_eq]

theorem enq_fail_eq (N : Nat) (q : aci_queue_t) (p : hal_aci_data_t)
    (h : (m_aci_q_enqueue N q p).1 = false) : (m_aci_q_enqueue N q p).2 = q := by
  unfold m_aci_q_enqueue at h ⊢
  dsimp only at h ⊢
  split at h <;> simp_all

theorem enq_succ_head (N : Nat) (q : aci_queue_t) (p : hal_aci_data_t)
    (h : (m_aci_q_enqueue N q p).1 = true) : (m_aci_q_enqueue N q p).2.head = q.head := by
  unfold m_aci_q_enqueue at h ⊢
  dsimp only at h ⊢
  split at h <;> simp_all

theorem enq_succ_tail (N : Nat) (q : aci_queue_t) (p : hal_aci_data_t)
    (h : (m_aci_q_enqueue N q p).1 = true) :
    (m_aci_q_enqueue N q p).2.tail = (q.tail + 1) % N := by
  unfold m_aci_q_enqueue at h ⊢
  dsimp only at h ⊢
  split at h <;> simp_all

theorem enq_wf (N : Nat) (q : aci_queue_t) (p : hal_aci_data_t)
    (hN : 0 < N) (hq : QWf N q) : QWf N (m_aci_q_enqueue N q p).2 := by
  unfold m_aci_q_enqueue
  dsimp only
  split
  · exact hq
  · exact ⟨hq.1, Nat.mod_lt _ hN⟩

theorem enq_succ_qsize (N : Nat) (q : aci_queue_t) (p : hal_aci_data_t)
    (hq : QWf N q) (h : (m_aci_q_enqueue N q p).1 = true) :
    qsize N (m_aci_q_enqueue N q p).2 = qsize N q + 1 := by
  obtain ⟨h1, h2⟩ := hq
  unfold m_aci_q_enqueue at h ⊢
  dsimp only at h ⊢
  split at h
  · exact absurd h (by simp)
  · rename_i hne
    rw [if_neg hne]
    unfold qsize
    dsimp only
    by_cases hc : q.tail + 1 < N
    · rw [Nat.mod_eq_of_lt hc] at hne ⊢
      rw [mod_small_cases N (q.tail + 1 + N - q.head) (by omega),
        mod_small_cases N (q.tail + N - q.head) (by omega)]
      split <;> split <;> omega
    · have hc2 : q.tail + 1 = N := by omega
      rw [hc2] at hne ⊢
      rw [Nat.mod_self] at hne ⊢
      rw [mod_small_cases N (0 + N - q.head) (by omega),
        mod_small_cases N (q.tail + N - q.head) (by omega)]
      split <;> split <;> omega

theorem enq_succ_data (N : Nat) (q : aci_queue_t) (p : hal_aci_data_t)
    (h : (m_aci_q_enqueue N q p).1 = true) :
    (m_aci_q_enqueue N q p).2.aci_data = fun i =>
      if i = q.tail then
        { status_byte := 0,
          buffer := memcpyBuf (q.aci_data q.tail).buffer p.buffer (p.buffer 0 + 1) }
      else q.aci_data i := by
  unfold m_aci_q_enqueue at h ⊢
  dsimp only at h ⊢
  split at h <;> simp_all

theorem enq_slot_agrees (N : Nat) (q : aci_queue_t) (p : hal_aci_data_t)
    (h : (m_aci_q_enqueue N q p).1 = true) :
    Agrees ((m_aci_q_enqueue N q p).2.aci_data q.tail) p ∧
      ((m_aci_q_enqueue N q p).2.aci_data q.tail).status_byte = 0 := by
  rw [enq_succ_data N q p h]
  dsimp only
  rw [if_pos rfl]
  refine ⟨fun j hj => ?_, rfl⟩
  show memcpyBuf (q.aci_data q.tail).buffer p.buffer (p.buffer 0 + 1) j = p.buffer j
  unfold memcpyBuf
  rw [if_pos (by omega)]

theorem enq_succ_qlist (N : Nat) (q : aci_queue_t) (p : hal_aci_data_t)
    (hq : QWf N q) (h : (m_aci_q_enqueue N q p).1 = true) :
    qList N (m_aci_q_enqueue N q p).2 =
      qList N q ++ [(m_aci_q_enqueue N q p).2.aci_data q.tail] := by
  unfold qList
  rw [enq_succ_qsize N q p hq h, enq_succ_head N q p h, List.range_succ, List.map_append]
  congr 1
  · apply List.map_congr_left
    intro k hk
    rw [List.mem_range] at hk
    rw [enq_succ_data N q p h]
    simp only
    rw [if_neg (head_add_lt_ne_tail N q hq k hk)]
  · simp only [List.map_cons, List.map_nil, List.cons.injEq, and_true]
    rw [head_add_qsize N q hq]

theorem deq_none_iff (N : Nat) (q : aci_queue_t) :
    (m_aci_q_dequeue N q).2 = none ↔ m_aci_q_is_empty q = true := by
  unfold m_aci_q_dequeue m_aci_q_is_empty
  split <;> simp_all [beq_iff_eq]

theorem deq_none_eq (N : Nat) (q : aci_queue_t)
    (h : (m_aci_q_dequeue N q).2 = none) : (m_aci_q_dequeue N q).1 = q := by
  unfold m_aci_q_dequeue at h ⊢
  split at h <;> simp_all

theorem deq_some_val (N : Nat) (q : aci_queue_t) (d : hal_aci_data_t)
    (h : (m_aci_q_dequeue N q).2 = some d) : d = q.aci_data q.head := by
  unfold m_aci_q_dequeue at h
  split at h <;> simp_all

theorem deq_some_state (N : Nat) (q : aci_queue_t) (d : hal_aci_data_t)
    (h : (m_aci_q_dequeue N q).2 = some d) :
    (m_aci_q_dequeue N q).1 =
      { q with head := (q.head + 1) % N } := by
  unfold m_aci_q_dequeue at h ⊢
  split at h <;> simp_all

theorem deq_wf (N : Nat) (q : aci_queue_t) (hN : 0 < N) (hq : QWf N q) :
    QWf N (m_aci_q_dequeue N q).1 := by
  unfold m_aci_q_dequeue
  split
  · exact hq
  · exact ⟨Nat.mod_lt _ hN, hq.2⟩

theorem deq_some_qsize (N : Nat) (q : aci_queue_t) (d : hal_aci_data_t)
    (hq : QWf N q) (h : (m_aci_q_dequeue N q).2 = some d) :
    qsize N (m_aci_q_dequeue N q).1 = qsize N q - 1 ∧ 1 ≤ qsize N q := by
  obtain ⟨h1, h2⟩ := hq
  have hne : q.head ≠ q.tail := by
    unfold m_aci_q_dequeue at h
    split at h <;> simp_all
  rw [deq_some_state N q d h]
  unfold qsize
  simp only
  rw [mod_small_cases N (q.head + 1) (by omega)]
  rw [mod_small_cases N (q.tail + N - q.head) (by omega)]
  rw [mod_small_cases N _ (by split <;> omega)]
  split <;> split <;> split <;> omega

theorem deq_some_qlist (N : Nat) (q : aci_queue_t) (d : hal_aci_data_t)
    (hq : QWf N q) (h : (m_aci_q_dequeue N q).2 = some d) :
    qList N q = d :: qList N (m_aci_q_dequeue N q).1 := by
  obtain ⟨hsz, hpos⟩ := deq_some_qsize N q d hq h
  unfold qList
  have hszq : qsize N q = qsize N (m_aci_q_dequeue N q).1 + 1 := by omega
  rw [hszq, List.range_succ_eq_map, List.map_cons, List.map_map]
  rw [deq_some_state N q d h]
  simp only
  congr 1
  · rw [Nat.add_zero, Nat.mod_eq_of_lt hq.1, deq_some_val N q d h]
  · apply List.map_congr_left
    intro k _
    simp only [Function.comp]
    have e : q.head + 1 + k = q.head + Nat.succ k := by omega
    rw [Nat.mod_add_mod, e]

theorem peek_eq_deq (N : Nat) (q : aci_queue_t) :
    m_aci_q_peek q = (m_aci_q_dequeue N q).2 := by
  unfold m_aci_q_peek m_aci_q_dequeue
  split <;> simp

end QueueLemmas

theorem qopStep_inv (N : Nat) (s : aci_queue_t × Nat × Nat) (op : QOp)
    (hs : QInv N s) : QInv N (qopStep N s op) := by
  obtain ⟨q, e, d⟩ := s
  obtain ⟨hwf, hde, hsz⟩ := hs
  dsimp only at hwf hde hsz
  have hN : 0 < N := by
    rcases Nat.eq_zero_or_pos N with h0 | h1
    · exact absurd hwf.1 (by omega)
    · exact h1
  cases op with
  | enq p =>
    dsimp only [qopStep]
    by_cases hok : (m_aci_q_enqueue N q p).1 = true
    · refine ⟨enq_wf N q p hN hwf, ?_, ?_⟩
      · dsimp only
        rw [if_pos hok]
        omega
      · dsimp only
        rw [if_pos hok, enq_succ_qsize N q p hwf hok]
        omega
    · have hf : (m_aci_q_enqueue N q p).1 = false := by
        cases hv : (m_aci_q_enqueue N q p).1 <;> simp_all
      refine ⟨?_, ?_, ?_⟩
      · dsimp only
        rw [enq_fail_eq N q p hf]
        exact hwf
      · dsimp only
        simp only [hf, Bool.false_eq_true, if_false]
        omega
      · dsimp only
        simp only [hf, Bool.false_eq_true, if_false, enq_fail_eq N q p hf]
        omega
  | deq =>
    dsimp only [qopStep]
    cases hv : (m_aci_q_dequeue N q).2 with
    | none =>
      refine ⟨?_, ?_, ?_⟩
      · dsimp only
        rw [deq_none_eq N q hv]
        exact hwf
      · dsimp only
        simp only [hv, Option.isSome_none, Bool.false_eq_true, if_false]
        omega
      · dsimp only
        simp only [hv, Option.isSome_none, Bool.false_eq_true, if_false,
          deq_none_eq N q hv]
        omega
    | some x =>
      obtain ⟨hsz', hpos⟩ := deq_some_qsize N q x hwf hv
      refine ⟨deq_wf N q hN hwf, ?_, ?_⟩
      · dsimp only
        simp only [hv, Option.isSome_some, if_true]
        omega
      · dsimp only
        simp only [hv, Option.isSome_some, if_true]
        omega

theorem runOps_inv (N : Nat) (hN : 2 ≤ N) (ops : List QOp) : QInv N (runOps N ops) := by
  unfold runOps
  have hinit : QInv N (m_aci_q_init N zeroQueue, 0, 0) := by
    refine ⟨⟨by simp [m_aci_q_init]; omega, by simp [m_aci_q_init]; omega⟩, le_refl 0, ?_⟩
    simp [m_aci_q_init, qsize, Nat.mod_self]
  generalize (m_aci_q_init N zeroQueue, 0, 0) = s at hinit ⊢
  induction ops generalizing s with
  | nil => exact hinit
  | cons op rest ih => exact ih _ (qopStep_inv N s op hinit)

theorem init_idem (N : Nat) (q : aci_queue_t) :
    m_aci_q_init N (m_aci_q_init N q) = m_aci_q_init N q := by
  unfold m_aci_q_init
  dsimp only
  congr 1
  funext i
  by_cases hi : i < N
  · simp only [if_pos hi]
    congr 1
    funext j
    by_cases h0 : j = 0
    · simp [h0]
    · by_cases h1 : j = 1 <;> simp [h0, h1]
  · simp [hi]

/-- C9: `m_aci_q_flush` leaves both queues with `head = tail = 0` (hence
empty), and flushing twice produces exactly the same state as flushing
once. -/
theorem c9_flush_idempotent (N : Nat) (s : TLState) :
    (m_aci_q_flush N s).aci_tx_q.head = 0 ∧ (m_aci_q_flush N s).aci_tx_q.tail = 0 ∧
    (m_aci_q_flush N s).aci_rx_q.head = 0 ∧ (m_aci_q_flush N s).aci_rx_q.tail = 0 ∧
    m_aci_q_is_empty (m_aci_q_flush N s).aci_tx_q = true ∧
    m_aci_q_is_empty (m_aci_q_flush N s).aci_rx_q = true ∧
    m_aci_q_flush N (m_aci_q_flush N s) = m_aci_q_flush N s := by
  refine ⟨rfl, rfl, rfl, rfl, rfl, rfl, ?_⟩
  unfold m_aci_q_flush
  dsimp only
  rw [init_idem N s.aci_tx_q, init_idem N s.aci_rx_q]

/-- C6: `hal_aci_tl_send` rejects a packet whose length byte exceeds the
maximum, leaving the whole state (both queues and the REQN line)
unchanged; otherwise it returns exactly the enqueue's verdict, asserting
REQN precisely on success and leaving the state unchanged on failure; in
particular it fails whenever the outgoing queue is full. -/
theorem c6_send_behavior (maxLen N : Nat) (s : TLState) (p : hal_aci_data_t) :
    (p.buffer 0 > maxLen →
       (hal_aci_tl_send maxLen N s p).1 = false ∧ (hal_aci_tl_send maxLen N s p).2 = s) ∧
    (p.buffer 0 ≤ maxLen →
       ((hal_aci_tl_send maxLen N s p).1 = (m_aci_q_enqueue N s.aci_tx_q p).1) ∧
       ((m_aci_q_enqueue N s.aci_tx_q p).1 = true →
          (hal_aci_tl_send maxLen N s p).2 =
            { s with aci_tx_q := (m_aci_q_enqueue N s.aci_tx_q p).2, reqn_low := true }) ∧
       ((m_aci_q_enqueue N s.aci_tx_q p).1 = false →
          (hal_aci_tl_send maxLen N s p).2 = s)) ∧
    (m_aci_q_is_full N s.aci_tx_q = true → (hal_aci_tl_send maxLen N s p).1 = false) := by
  unfold hal_aci_tl_send
  dsimp only
  refine ⟨fun h => ?_, fun h => ?_, fun hfull => ?_⟩
  · rw [if_pos h]
    exact ⟨rfl, rfl⟩
  · rw [if_neg (by omega)]
    refine ⟨?_, fun hok => ?_, fun hf => ?_⟩
    · by_cases hok : (m_aci_q_enqueue N s.aci_tx_q p).1 = true
      · rw [if_pos hok, hok]
      · have hf : (m_aci_q_enqueue N s.aci_tx_q p).1 = false := by
          cases hv : (m_aci_q_enqueue N s.aci_tx_q p).1 <;> simp_all
        rw [if_neg (by simp [hf]), hf]
    · rw [if_pos hok]
    · rw [if_neg (by simp [hf])]
  · have hf : (m_aci_q_enqueue N s.aci_tx_q p).1 = false := (enq_fail_iff N s.aci_tx_q p).mpr hfull
    by_cases h : p.buffer 0 > maxLen
    · rw [if_pos h]
    · rw [if_neg h, if_neg (by simp [hf])]

/-- C2: over any sequence of enqueue/dequeue operations from a freshly
initialised queue, successful dequeues never outnumber successful
enqueues, their difference never exceeds `N - 1`, `is_empty`/`is_full`
agree with that difference at every step, an enqueue fails exactly when
the queue is full and a failed enqueue leaves the queue (hence `head`
and `tail`) unchanged, and a dequeue or peek fails exactly when the
queue is empty, a failed dequeue likewise leaving the queue unchanged. -/
theorem c2_bounded_queue_invariants (N : Nat) (ops : List QOp) (hN : 2 ≤ N) :
    (runOps N ops).2.2 ≤ (runOps N ops).2.1 ∧
    (runOps N ops).2.1 - (runOps N ops).2.2 ≤ N - 1 ∧
    (m_aci_q_is_empty (runOps N ops).1 = true ↔ (runOps N ops).2.1 - (runOps N ops).2.2 = 0) ∧
    (m_aci_q_is_full N (runOps N ops).1 = true ↔
       (runOps N ops).2.1 - (runOps N ops).2.2 = N - 1) ∧
    (∀ p : hal_aci_data_t,
       ((m_aci_q_enqueue N (runOps N ops).1 p).1 = false ↔
          m_aci_q_is_full N (runOps N ops).1 = true) ∧
       ((m_aci_q_enqueue N (runOps N ops).1 p).1 = false →
          (m_aci_q_enqueue N (runOps N ops).1 p).2 = (runOps N ops).1)) ∧
    (((m_aci_q_dequeue N (runOps N ops).1).2 = none ↔
        m_aci_q_is_empty (runOps N ops).1 = true) ∧
     ((m_aci_q_dequeue N (runOps N ops).1).2 = none →
        (m_aci_q_dequeue N (runOps N ops).1).1 = (runOps N ops).1)) ∧
    (m_aci_q_peek (runOps N ops).1 = none ↔ m_aci_q_is_empty (runOps N ops).1 = true) := by
  obtain ⟨hwf, hde, hsz⟩ := runOps_inv N hN ops
  have hlt := qsize_lt N (runOps N ops).1 (by omega)
  refine ⟨hde, by omega, ?_, ?_, ?_, ⟨?_, deq_none_eq N _⟩, ?_⟩
  · rw [is_empty_iff N _ hwf]
    omega
  · rw [is_full_iff N _ hN hwf]
    omega
  · exact fun p => ⟨enq_fail_iff N _ p, enq_fail_eq N _ p⟩
  · exact deq_none_iff N _
  · rw [peek_eq_deq N]
    exact deq_none_iff N _

theorem c2_witness :
    2 ≤ 4 ∧
    ((runOps 4 [QOp.enq pktA, QOp.enq pktB, QOp.deq, QOp.enq pktA]).2.2 ≤
       (runOps 4 [QOp.enq pktA, QOp.enq pktB, QOp.deq, QOp.enq pktA]).2.1 ∧
     (runOps 4 [QOp.enq pktA, QOp.enq pktB, QOp.deq, QOp.enq pktA]).2.1 -
       (runOps 4 [QOp.enq pktA, QOp.enq pktB, QOp.deq, QOp.enq pktA]).2.2 ≤ 4 - 1) :=
  ⟨by decide,
   (c2_bounded_queue_invariants 4 [QOp.enq pktA, QOp.enq pktB, QOp.deq, QOp.enq pktA]
      (by decide)).1,
   (c2_bounded_queue_invariants 4 [QOp.enq pktA, QOp.enq pktB, QOp.deq, QOp.enq pktA]
      (by decide)).2.1⟩

theorem pollLoop_idx (dev : Nat → Nat) :
    ∀ (fuel : Nat) (buf : Nat → Nat) (byte_cnt spiIdx : Nat),
      (pollLoop dev buf byte_cnt spiIdx fuel).2 = spiIdx + fuel := by
  intro fuel
  induction fuel with
  | zero => intro buf byte_cnt spiIdx; rfl
  | succ f ih =>
    intro buf byte_cnt spiIdx
    show (pollLoop dev _ (byte_cnt + 1) (spiIdx + 1) f).2 = spiIdx + (f + 1)
    rw [ih]
    omega

/-- C1: the number of post-header bytes exchanged by
`hal_aci_tl_poll_get` — the total SPI exchanges minus the two header
exchanges — is the device's declared length `Ld = dev 1` when the host's
declared length `Lh` (byte 0 of the dequeued packet, or 0 when the
outgoing queue was empty) is 0, and `max Ld (Lh - 1)` otherwise, in
every case clamped to at most the maximum payload length. -/
theorem c1_length_negotiation (maxLen N : Nat) (dev : Nat → Nat)
    (scratch : hal_aci_data_t) (s : TLState) :
    (hal_aci_tl_poll_get maxLen N dev scratch s).2 =
      2 + min maxLen
        (if ((m_aci_q_dequeue N s.aci_tx_q).2.map (fun d => d.buffer 0)).getD 0 = 0
         then dev 1
         else max (dev 1)
           (((m_aci_q_dequeue N s.aci_tx_q).2.map (fun d => d.buffer 0)).getD 0 - 1)) := by
  unfold hal_aci_tl_poll_get
  dsimp only
  rw [pollLoop_idx]
  cases hdq : (m_aci_q_dequeue N s.aci_tx_q).2 with
  | none =>
    simp [hdq]
    split <;> omega
  | some d =>
    by_cases h0 : d.buffer 0 = 0
    · simp [hdq, h0]
      split <;> omega
    · simp [hdq, h0]
      split
      · split <;> omega
      · split <;> omega

/-- C4 counterexample: on the non-full but non-empty queue
`oneElemQueue`, enqueueing `pktB` (whose length byte is within any
reasonable maximum) and then dequeuing returns the OLD head packet
`pktA`, whose payload byte at index 0 of the payload differs from
`pktB`'s, refuting the claim for arbitrary non-full queue states. -/
theorem c4_counterexample :
    m_aci_q_is_full 4 oneElemQueue = false ∧
    pktB.buffer 0 ≤ 31 ∧
    (m_aci_q_dequeue 4 (m_aci_q_enqueue 4 oneElemQueue pktB).2).2.map (fun d => d.buffer 1)
      ≠ some (pktB.buffer 1) := by
  refine ⟨by decide, by decide, ?_⟩
  decide

/-- C4 (amended): for every packet whose length byte is within the
maximum and every well-formed EMPTY queue state, enqueue followed by
dequeue succeeds and yields a packet with status byte 0, the same length
byte, and the same payload bytes at indices [0, length). -/
theorem c4_roundtrip_on_empty (maxLen N : Nat) (q : aci_queue_t) (p : hal_aci_data_t)
    (hN : 2 ≤ N) (hq : QWf N q) (hempty : m_aci_q_is_empty q = true)
    (_hlen : p.buffer 0 ≤ maxLen) :
    (m_aci_q_enqueue N q p).1 = true ∧
    ∃ d, (m_aci_q_dequeue N (m_aci_q_enqueue N q p).2).2 = some d ∧
      d.status_byte = 0 ∧ d.buffer 0 = p.buffer 0 ∧
      ∀ t, t < p.buffer 0 → d.buffer (t + 1) = p.buffer (t + 1) := by
  have hsz : qsize N q = 0 := (is_empty_iff N q hq).mp hempty
  have hok : (m_aci_q_enqueue N q p).1 = true := by
    cases hv : (m_aci_q_enqueue N q p).1 with
    | true => rfl
    | false =>
      have hfull := (enq_fail_iff N q p).mp hv
      have := (is_full_iff N q hN hq).mp hfull
      omega
  refine ⟨hok, ?_⟩
  have hwf1 : QWf N (m_aci_q_enqueue N q p).2 := enq_wf N q p (by omega) hq
  have hsz1 : qsize N (m_aci_q_enqueue N q p).2 = 1 := by
    rw [enq_succ_qsize N q p hq hok, hsz]
  have hq0 : qList N q = [] := by
    unfold qList
    rw [hsz]
    rfl
  have hlist1 : qList N (m_aci_q_enqueue N q p).2 =
      [(m_aci_q_enqueue N q p).2.aci_data q.tail] := by
    rw [enq_succ_qlist N q p hq hok, hq0]
    rfl
  cases hv : (m_aci_q_dequeue N (m_aci_q_enqueue N q p).2).2 with
  | none =>
    have hemp1 := (deq_none_iff N _).mp hv
    have := (is_empty_iff N _ hwf1).mp hemp1
    omega
  | some d =>
    have hcons := deq_some_qlist N _ d hwf1 hv
    rw [hlist1] at hcons
    have hd : d = (m_aci_q_enqueue N q p).2.aci_data q.tail := by
      have := List.head_eq_of_cons_eq hcons.symm
      exact this
    obtain ⟨hag, hst⟩ := enq_slot_agrees N q p hok
    refine ⟨d, rfl, ?_, ?_, ?_⟩
    · rw [hd]; exact hst
    · rw [hd]; exact hag 0 (Nat.zero_le _)
    · intro t ht
      rw [hd]
      exact hag (t + 1) (by omega)

theorem c4_witness :
    2 ≤ 4 ∧ QWf 4 (m_aci_q_init 4 zeroQueue) ∧
    m_aci_q_is_empty (m_aci_q_init 4 zeroQueue) = true ∧ pktB.buffer 0 ≤ 31 ∧
    (m_aci_q_enqueue 4 (m_aci_q_init 4 zeroQueue) pktB).1 = true ∧
    (m_aci_q_dequeue 4 (m_aci_q_enqueue 4 (m_aci_q_init 4 zeroQueue) pktB).2).2.map
      (fun d => d.buffer 1) = some 7 := by
  have h := c4_roundtrip_on_empty 31 4 (m_aci_q_init 4 zeroQueue) pktB (by decide)
    ⟨by decide, by decide⟩ (by decide) (by decide)
  refine ⟨by decide, ⟨by decide, by decide⟩, by decide, by decide, h.1, ?_⟩
  obtain ⟨d, hd, hst, hl, hp⟩ := h.2
  rw [hd]
  have hb : d.buffer 1 = pktB.buffer 1 := hp 0 (by decide)
  show some (d.buffer 1) = some 7
  rw [hb]
  rfl

theorem enqRun_spec (N : Nat) (hN : 0 < N) :
    ∀ (ps : List hal_aci_data_t) (q : aci_queue_t), QWf N q →
      (enqRun N q ps).2 = true →
      QWf N (enqRun N q ps).1 ∧
      ∃ ss : List hal_aci_data_t,
        qList N (enqRun N q ps).1 = qList N q ++ ss ∧
        ∀ i p, ps.get? i = some p →
          ∃ x, ss.get? i = some x ∧ Agrees x p ∧ x.status_byte = 0 := by
  intro ps
  induction ps with
  | nil =>
    intro q hq _
    refine ⟨hq, [], by simp [enqRun], ?_⟩
    intro i p h
    cases i <;> simp at h
  | cons p ps ih =>
    intro q hq hok
    have hok' : (m_aci_q_enqueue N q p).1 = true ∧ (enqRun N (m_aci_q_enqueue N q p).2 ps).2 = true := by
      unfold enqRun at hok
      dsimp only at hok
      exact Bool.and_eq_true _ _ |>.mp hok
    obtain ⟨h1, h2⟩ := hok'
    obtain ⟨hwf', ss, hlist, hget⟩ := ih (m_aci_q_enqueue N q p).2 (enq_wf N q p hN hq) h2
    have hfin : (enqRun N q (p :: ps)).1 = (enqRun N (m_aci_q_enqueue N q p).2 ps).1 := rfl
    refine ⟨by rw [hfin]; exact hwf',
      (m_aci_q_enqueue N q p).2.aci_data q.tail :: ss, ?_, ?_⟩
    · rw [hfin, hlist, enq_succ_qlist N q p hq h1]
      simp
    · intro i pp hi
      cases i with
      | zero =>
        simp only [List.get?_cons_zero, Option.some_inj] at hi
        subst hi
        obtain ⟨hag, hst⟩ := enq_slot_agrees N q p h1
        exact ⟨_, rfl, hag, hst⟩
      | succ j =>
        simp only [List.get?_cons_succ] at hi
        simpa using hget j pp hi

theorem deqRun_spec (N : Nat) (hN : 0 < N) :
    ∀ (c : Nat) (q : aci_queue_t), QWf N q →
      ∀ i d, (qList N q).get? i = some d → i < c →
        (deqRun N q c).get? i = some (some d) := by
  intro c
  induction c with
  | zero =>
    intro q hq i d hg hc
    exact absurd hc (by omega)
  | succ k ih =>
    intro q hq i d hg hc
    have hqs : qsize N q ≠ 0 := by
      intro h0
      unfold qList at hg
      rw [h0] at hg
      cases i <;> simp at hg
    cases hv : (m_aci_q_dequeue N q).2 with
    | none =>
      have := (is_empty_iff N q hq).mp ((deq_none_iff N q).mp hv)
      omega
    | some x =>
      have hcons := deq_some_qlist N q x hq hv
      unfold deqRun
      dsimp only
      rw [hv]
      cases i with
      | zero =>
        rw [hcons] at hg
        simp only [List.get?_cons_zero, Option.some_inj] at hg
        simp [hg]
      | succ j =>
        rw [hcons] at hg
        simp only [List.get?_cons_succ] at hg
        simpa using ih (m_aci_q_dequeue N q).1 (deq_wf N q hN hq) j d hg (by omega)

/-- C5: if `k` enqueues of the packets `p1, ..., pk` into a freshly
initialised queue all succeed, then `k` subsequent dequeues all succeed
and return the packets in exactly that order (each returned packet
agreeing with the corresponding enqueued one on the length byte and on
every byte up to the declared length). -/
theorem c5_fifo_order (N : Nat) (ps : List hal_aci_data_t) (hN : 2 ≤ N)
    (hok : (enqRun N (m_aci_q_init N zeroQueue) ps).2 = true) :
    ∀ i p, ps.get? i = some p →
      ∃ d, (deqRun N (enqRun N (m_aci_q_init N zeroQueue) ps).1 ps.length).get? i =
          some (some d) ∧
        d.status_byte = 0 ∧ d.buffer 0 = p.buffer 0 ∧
        ∀ j, j ≤ p.buffer 0 → d.buffer j = p.buffer j := by
  have hNz : 0 < N := by omega
  have hqwf : QWf N (m_aci_q_init N zeroQueue) :=
    ⟨show 0 < N by omega, show 0 < N by omega⟩
  have hempty : qsize N (m_aci_q_init N zeroQueue) = 0 := by
    show (0 + N - 0) % N = 0
    simp [Nat.mod_self]
  have hqlist : qList N (m_aci_q_init N zeroQueue) = [] := by
    unfold qList
    rw [hempty]
    rfl
  obtain ⟨hwf', ss, hlist, hget⟩ := enqRun_spec N hNz ps _ hqwf hok
  rw [hqlist] at hlist
  simp only [List.nil_append] at hlist
  intro i p hi
  obtain ⟨x, hx, hag, hst⟩ := hget i p hi
  have hilen : i < ps.length := by
    cases hck : Nat.decLt i ps.length with
    | isTrue h => exact h
    | isFalse h =>
      rw [List.get?_eq_none.mpr (by omega)] at hi
      cases hi
  refine ⟨x, ?_, hst, hag 0 (Nat.zero_le _), hag⟩
  apply deqRun_spec N hNz ps.length _ hwf'
  · rw [hlist]
    exact hx
  · exact hilen

theorem c5_witness :
    2 ≤ 4 ∧
    (enqRun 4 (m_aci_q_init 4 zeroQueue) [pktA, pktB]).2 = true ∧
    ((deqRun 4 (enqRun 4 (m_aci_q_init 4 zeroQueue) [pktA, pktB]).1
        [pktA, pktB].length).get? 1).map (fun o => o.map (fun d => d.buffer 1)) =
      some (some 7) := by
  refine ⟨by decide, by decide, ?_⟩
  obtain ⟨d, hd, hst, hl, hp⟩ :=
    c5_fifo_order 4 [pktA, pktB] (by decide) (by decide) 1 pktB rfl
  rw [hd]
  show some (some (d.buffer 1)) = some (some 7)
  rw [hp 1 (by decide)]
  rfl

theorem poll_rx (maxLen N : Nat) (dev : Nat → Nat) (scratch : hal_aci_data_t) (s : TLState) :
    (hal_aci_tl_poll_get maxLen N dev scratch s).1.aci_rx_q = s.aci_rx_q := rfl

theorem poll_mask (maxLen N : Nat) (dev : Nat → Nat) (scratch : hal_aci_data_t) (s : TLState) :
    (hal_aci_tl_poll_get maxLen N dev scratch s).1.eimsk_masked = s.eimsk_masked := rfl

theorem poll_halt (maxLen N : Nat) (dev : Nat → Nat) (scratch : hal_aci_data_t) (s : TLState) :
    (hal_aci_tl_poll_get maxLen N dev scratch s).1.halted = s.halted := rfl

theorem deq_mem (N : Nat) (q : aci_queue_t) (d : hal_aci_data_t) (hq : QWf N q)
    (h : (m_aci_q_dequeue N q).2 = some d) : d ∈ qList N q := by
  rw [deq_some_qlist N q d hq h]
  exact List.mem_cons_self _ _

theorem handle_rx_wf (maxLen N : Nat) (dev : Nat → Nat) (scratch : hal_aci_data_t)
    (pins : aci_pins_t) (s : TLState) (hN : 0 < N) (hrx : QWf N s.aci_rx_q) :
    QWf N (m_rdy_line_handle maxLen N dev scratch pins s).aci_rx_q := by
  unfold m_rdy_line_handle
  dsimp only
  rw [poll_rx maxLen N dev scratch s]
  split
  · split
    · split
      · split
        · exact enq_wf N s.aci_rx_q _ hN hrx
        · exact enq_wf N s.aci_rx_q _ hN hrx
      · exact enq_wf N s.aci_rx_q _ hN hrx
    · exact hrx
  · exact hrx

theorem handle_rx_inv (maxLen N : Nat) (dev : Nat → Nat) (scratch : hal_aci_data_t)
    (pins : aci_pins_t) (s : TLState) (hrx : QWf N s.aci_rx_q)
    (hinv : ∀ x ∈ qList N s.aci_rx_q, 1 ≤ x.buffer 0) :
    ∀ x ∈ qList N (m_rdy_line_handle maxLen N dev scratch pins s).aci_rx_q,
      1 ≤ x.buffer 0 := by
  unfold m_rdy_line_handle
  dsimp only
  rw [poll_rx maxLen N dev scratch s]
  split
  · rename_i hpos
    split
    · rename_i hok
      have hnew : ∀ x ∈ qList N (m_aci_q_enqueue N s.aci_rx_q
          ((hal_aci_tl_poll_get maxLen N dev scratch s).1.received_data)).2,
          1 ≤ x.buffer 0 := by
        rw [enq_succ_qlist N s.aci_rx_q _ hrx hok]
        intro x hx
        rcases List.mem_append.mp hx with hx1 | hx2
        · exact hinv x hx1
        · have hxe : x = (m_aci_q_enqueue N s.aci_rx_q
              ((hal_aci_tl_poll_get maxLen N dev scratch s).1.received_data)).2.aci_data
                s.aci_rx_q.tail := by
            simpa using hx2
          obtain ⟨hag, _⟩ := enq_slot_agrees N s.aci_rx_q _ hok
          rw [hxe, hag 0 (Nat.zero_le _)]
          omega
      split
      · split
        · exact hnew
        · exact hnew
      · exact hnew
    · exact hinv
  · exact hinv

theorem query_rx_wf (maxLen N : Nat) (dev : Nat → Nat) (scratch : hal_aci_data_t)
    (pins : aci_pins_t) (rdynLow : Bool) (s : TLState) (hN : 0 < N)
    (hrx : QWf N s.aci_rx_q) :
    QWf N (m_aci_device_query maxLen N dev scratch pins rdynLow s).aci_rx_q := by
  unfold m_aci_device_query
  split
  · exact handle_rx_wf maxLen N dev scratch pins s hN hrx
  · split
    · exact hrx
    · exact hrx

theorem query_rx_inv (maxLen N : Nat) (dev : Nat → Nat) (scratch : hal_aci_data_t)
    (pins : aci_pins_t) (rdynLow : Bool) (s : TLState) (hrx : QWf N s.aci_rx_q)
    (hinv : ∀ x ∈ qList N s.aci_rx_q, 1 ≤ x.buffer 0) :
    ∀ x ∈ qList N (m_aci_device_query maxLen N dev scratch pins rdynLow s).aci_rx_q,
      1 ≤ x.buffer 0 := by
  unfold m_aci_device_query
  split
  · exact handle_rx_inv maxLen N dev scratch pins s hrx hinv
  · split
    · exact hinv
    · exact hinv

theorem event_get_deq (maxLen N : Nat) (dev : Nat → Nat) (scratch : hal_aci_data_t)
    (pins : aci_pins_t) (rdynLow : Bool) (s : TLState) (d : hal_aci_data_t)
    (h : (hal_aci_tl_event_get maxLen N dev scratch pins rdynLow s).2 = some d) :
    (m_aci_q_dequeue N (if pins.interface_is_interrupt then s
        else m_aci_device_query maxLen N dev scratch pins rdynLow s).aci_rx_q).2 = some d := by
  unfold hal_aci_tl_event_get at h
  dsimp only at h
  generalize hs0 : (if pins.interface_is_interrupt then s
      else m_aci_device_query maxLen N dev scratch pins rdynLow s) = s0 at h ⊢
  split at h
  · exact absurd h (by simp)
  · cases hv : (m_aci_q_dequeue N s0.aci_rx_q).2 with
    | none =>
      rw [hv] at h
      exact absurd h (by simp)
    | some x =>
      rw [hv] at h
      dsimp only at h
      exact h

/-- C10: the ready-line handler enqueues the transaction result into the
incoming queue only when its length byte is positive — a null result
(length 0) leaves the incoming queue, the interrupt mask and the halted
flag untouched — and consequently, when every packet stored in the
incoming queue has a positive length byte, every packet observable
through `hal_aci_tl_event_peek` or `hal_aci_tl_event_get` has
length at least 1. -/
theorem c10_null_packet_discarded (maxLen N : Nat) (dev : Nat → Nat)
    (scratch : hal_aci_data_t) (pins : aci_pins_t) (rdynLow : Bool) (s : TLState)
    (hN : 0 < N) (hrx : QWf N s.aci_rx_q) :
    ((hal_aci_tl_poll_get maxLen N dev scratch s).1.received_data.buffer 0 = 0 →
       (m_rdy_line_handle maxLen N dev scratch pins s).aci_rx_q = s.aci_rx_q ∧
       (m_rdy_line_handle maxLen N dev scratch pins s).eimsk_masked = s.eimsk_masked ∧
       (m_rdy_line_handle maxLen N dev scratch pins s).halted = s.halted) ∧
    (0 < (hal_aci_tl_poll_get maxLen N dev scratch s).1.received_data.buffer 0 →
       (m_aci_q_enqueue N s.aci_rx_q
          (hal_aci_tl_poll_get maxLen N dev scratch s).1.received_data).1 = true →
       (m_rdy_line_handle maxLen N dev scratch pins s).aci_rx_q =
         (m_aci_q_enqueue N s.aci_rx_q
           (hal_aci_tl_poll_get maxLen N dev scratch s).1.received_data).2) ∧
    ((∀ x ∈ qList N s.aci_rx_q, 1 ≤ x.buffer 0) →
       (∀ x ∈ qList N (m_rdy_line_handle maxLen N dev scratch pins s).aci_rx_q,
          1 ≤ x.buffer 0) ∧
       (∀ d, (hal_aci_tl_event_peek maxLen N dev scratch pins rdynLow s).2 = some d →
          1 ≤ d.buffer 0) ∧
       (∀ d, (hal_aci_tl_event_get maxLen N dev scratch pins rdynLow s).2 = some d →
          1 ≤ d.buffer 0)) := by
  refine ⟨fun hz => ?_, fun hpos hok => ?_, fun hinv => ⟨?_, ?_, ?_⟩⟩
  · unfold m_rdy_line_handle
    dsimp only
    rw [if_neg (by omega)]
    exact ⟨rfl, rfl, rfl⟩
  · unfold m_rdy_line_handle
    dsimp only
    rw [poll_rx maxLen N dev scratch s, if_pos hpos, if_pos hok]
    split
    · split
      · rfl
      · rfl
    · rfl
  · exact handle_rx_inv maxLen N dev scratch pins s hrx hinv
  · intro d hd
    unfold hal_aci_tl_event_peek at hd
    dsimp only at hd
    by_cases hp : pins.interface_is_interrupt = true
    · rw [if_pos hp] at hd
      split at hd
      · exact absurd hd (by simp)
      · dsimp only at hd
        rw [peek_eq_deq N] at hd
        exact hinv d (deq_mem N _ d hrx hd)
    · rw [if_neg hp] at hd
      split at hd
      · exact absurd hd (by simp)
      · dsimp only at hd
        rw [peek_eq_deq N] at hd
        exact query_rx_inv maxLen N dev scratch pins rdynLow s hrx hinv d
          (deq_mem N _ d (query_rx_wf maxLen N dev scratch pins rdynLow s hN hrx) hd)
  · intro d hd
    have hdq := event_get_deq maxLen N dev scratch pins rdynLow s d hd
    by_cases hp : pins.interface_is_interrupt = true
    · rw [if_pos hp] at hdq
      exact hinv d (deq_mem N _ d hrx hdq)
    · rw [if_neg hp] at hdq
      exact query_rx_inv maxLen N dev scratch pins rdynLow s hrx hinv d
        (deq_mem N _ d (query_rx_wf maxLen N dev scratch pins rdynLow s hN hrx) hdq)

theorem c10_witness :
    0 < 4 ∧
    (hal_aci_tl_poll_get 31 4 (fun _ => 0) zeroData
      (hal_aci_tl_init_state 4)).1.received_data.buffer 0 = 0 ∧
    (m_rdy_line_handle 31 4 (fun _ => 0) zeroData edgePins
        (hal_aci_tl_init_state 4)).aci_rx_q = (hal_aci_tl_init_state 4).aci_rx_q :=
  ⟨by decide, by decide,
   ((c10_null_packet_discarded 31 4 (fun _ => 0) zeroData edgePins true
       (hal_aci_tl_init_state 4) (by decide) ⟨by decide, by decide⟩).1 (by decide)).1⟩

theorem handle_mask_polled (maxLen N : Nat) (dev : Nat → Nat) (scratch : hal_aci_data_t)
    (s : TLState) :
    (m_rdy_line_handle maxLen N dev scratch polledPins s).eimsk_masked = s.eimsk_masked := by
  unfold m_rdy_line_handle
  dsimp only
  split
  · split
    · split
      · split
        · rename_i hc
          exact absurd hc (by decide)
        · rfl
      · rfl
    · rfl
  · rfl

theorem query_mask (maxLen N : Nat) (dev : Nat → Nat) (scratch : hal_aci_data_t)
    (rdynLow : Bool) (s : TLState) :
    (m_aci_device_query maxLen N dev scratch polledPins rdynLow s).eimsk_masked =
      s.eimsk_masked := by
  unfold m_aci_device_query
  split
  · exact handle_mask_polled maxLen N dev scratch s
  · split
    · rfl
    · rfl

/-- C3: in edge-interrupt mode the interrupt-mask bit becomes set exactly
when the handler's enqueue of a nonempty received packet leaves the
incoming queue full (and a successful enqueue means the queue was not
full before, so this is precisely the not-full-to-full transition); it
becomes cleared exactly when `hal_aci_tl_event_get` successfully
dequeues while the queue was full (and such a dequeue leaves the queue
not full, so this is precisely the full-to-not-full transition); in
host-polled mode neither the handler, nor `event_get`, nor `event_peek`
ever changes the mask bit. -/
theorem c3_mask_set_cleared_at_transitions (maxLen N : Nat) (dev : Nat → Nat)
    (scratch : hal_aci_data_t) (rdynLow : Bool) (s : TLState)
    (hN : 2 ≤ N) (hrx : QWf N s.aci_rx_q) (hhalt : s.halted = false) :
    ((m_rdy_line_handle maxLen N dev scratch edgePins s).eimsk_masked = true ↔
       (s.eimsk_masked = true ∨
         ((hal_aci_tl_poll_get maxLen N dev scratch s).1.received_data.buffer 0 > 0 ∧
          (m_aci_q_enqueue N s.aci_rx_q
            (hal_aci_tl_poll_get maxLen N dev scratch s).1.received_data).1 = true ∧
          m_aci_q_is_full N (m_aci_q_enqueue N s.aci_rx_q
            (hal_aci_tl_poll_get maxLen N dev scratch s).1.received_data).2 = true))) ∧
    ((m_aci_q_enqueue N s.aci_rx_q
        (hal_aci_tl_poll_get maxLen N dev scratch s).1.received_data).1 = true →
       m_aci_q_is_full N s.aci_rx_q = false) ∧
    ((hal_aci_tl_event_get maxLen N dev scratch edgePins rdynLow s).1.eimsk_masked = true ↔
       (s.eimsk_masked = true ∧
         ¬(m_aci_q_is_full N s.aci_rx_q = true ∧
           (m_aci_q_dequeue N s.aci_rx_q).2.isSome = true))) ∧
    (m_aci_q_is_full N s.aci_rx_q = true →
       (m_aci_q_dequeue N s.aci_rx_q).2.isSome = true →
       m_aci_q_is_full N (m_aci_q_dequeue N s.aci_rx_q).1 = false) ∧
    (m_rdy_line_handle maxLen N dev scratch polledPins s).eimsk_masked = s.eimsk_masked ∧
    (hal_aci_tl_event_get maxLen N dev scratch polledPins rdynLow s).1.eimsk_masked =
      s.eimsk_masked ∧
    (hal_aci_tl_event_peek maxLen N dev scratch polledPins rdynLow s).1.eimsk_masked =
      s.eimsk_masked := by
  refine ⟨?_, ?_, ?_, ?_, handle_mask_polled maxLen N dev scratch s, ?_, ?_⟩
  · unfold m_rdy_line_handle
    dsimp only
    rw [poll_rx maxLen N dev scratch s]
    by_cases hpos : (hal_aci_tl_poll_get maxLen N dev scratch s).1.received_data.buffer 0 > 0
    · rw [if_pos hpos]
      by_cases hok : (m_aci_q_enqueue N s.aci_rx_q
          (hal_aci_tl_poll_get maxLen N dev scratch s).1.received_data).1 = true
      · rw [if_pos hok]
        by_cases hfull : m_aci_q_is_full N (m_aci_q_enqueue N s.aci_rx_q
            (hal_aci_tl_poll_get maxLen N dev scratch s).1.received_data).2 = true
        · rw [if_pos hfull, if_pos (show edgePins.interface_is_interrupt = true from rfl)]
          constructor
          · intro _
            exact Or.inr ⟨hpos, hok, hfull⟩
          · intro _
            rfl
        · rw [if_neg hfull]
          show s.eimsk_masked = true ↔ _
          constructor
          · exact fun h => Or.inl h
          · rintro (h | ⟨_, _, hf⟩)
            · exact h
            · exact absurd hf hfull
      · rw [if_neg hok]
        show s.eimsk_masked = true ↔ _
        constructor
        · exact fun h => Or.inl h
        · rintro (h | ⟨_, hk, _⟩)
          · exact h
          · exact absurd hk hok
    · rw [if_neg hpos]
      show s.eimsk_masked = true ↔ _
      constructor
      · exact fun h => Or.inl h
      · rintro (h | ⟨hp, _, _⟩)
        · exact h
        · exact absurd hp hpos
  · intro hok
    cases hf : m_aci_q_is_full N s.aci_rx_q with
    | false => rfl
    | true =>
      have := (enq_fail_iff N s.aci_rx_q
        ((hal_aci_tl_poll_get maxLen N dev scratch s).1.received_data)).mpr hf
      simp_all
  · unfold hal_aci_tl_event_get
    dsimp only
    rw [if_pos (show edgePins.interface_is_interrupt = true from rfl),
      if_neg (by rw [hhalt]; simp)]
    cases hv : (m_aci_q_dequeue N s.aci_rx_q).2 with
    | none =>
      dsimp only
      simp [hv]
    | some x =>
      rw [show edgePins.interface_is_interrupt = true from rfl, Bool.and_true]
      by_cases hfull : m_aci_q_is_full N s.aci_rx_q = true
      · rw [if_pos hfull]
        dsimp only
        simp [hfull, hv]
      · rw [if_neg (by simp_all)]
        dsimp only
        simp [hfull, hv]
  · intro hfull hsome
    cases hv : (m_aci_q_dequeue N s.aci_rx_q).2 with
    | none => rw [hv] at hsome; simp at hsome
    | some x =>
      have hsz := (is_full_iff N s.aci_rx_q hN hrx).mp hfull
      obtain ⟨hsz', _⟩ := deq_some_qsize N s.aci_rx_q x hrx hv
      cases hf : m_aci_q_is_full N (m_aci_q_dequeue N s.aci_rx_q).1 with
      | false => rfl
      | true =>
        have := (is_full_iff N _ hN (deq_wf N s.aci_rx_q (by omega) hrx)).mp hf
        omega
  · unfold hal_aci_tl_event_get
    dsimp only
    rw [if_neg (show ¬ polledPins.interface_is_interrupt = true by decide)]
    split
    · exact query_mask maxLen N dev scratch rdynLow s
    · cases hv : (m_aci_q_dequeue N
          (m_aci_device_query maxLen N dev scratch polledPins rdynLow s).aci_rx_q).2 with
      | none =>
        dsimp only
        exact query_mask maxLen N dev scratch rdynLow s
      | some x =>
        dsimp only
        rw [show polledPins.interface_is_interrupt = false from rfl, Bool.and_false]
        rw [if_neg (by simp)]
        exact query_mask maxLen N dev scratch rdynLow s
  · unfold hal_aci_tl_event_peek
    dsimp only
    rw [if_neg (show ¬ polledPins.interface_is_interrupt = true by decide)]
    split
    · exact query_mask maxLen N dev scratch rdynLow s
    · exact query_mask maxLen N dev scratch rdynLow s

theorem c3_witness :
    2 ≤ 4 ∧ QWf 4 (hal_aci_tl_init_state 4).aci_rx_q ∧
    (hal_aci_tl_init_state 4).halted = false ∧
    (m_rdy_line_handle 31 4 (fun _ => 0) zeroData polledPins
      (hal_aci_tl_init_state 4)).eimsk_masked = (hal_aci_tl_init_state 4).eimsk_masked :=
  ⟨by decide, ⟨by decide, by decide⟩, rfl,
   (c3_mask_set_cleared_at_transitions 31 4 (fun _ => 0) zeroData true
      (hal_aci_tl_init_state 4) (by decide) ⟨by decide, by decide⟩ rfl).2.2.2.2.1⟩

/-- C7 is violated by the code: when the device declares length byte 255
while the host is idle, the transaction engine clamps the number of
transferred bytes to the maximum, but stores the raw declared byte 255
as the received packet's length byte; the handler then enqueues that
packet into the incoming queue, so a stored (and peekable) packet has a
length byte of 255, far above the maximum of 31. -/
theorem c7_device_length_byte_unclamped :
    31 < 255 ∧
    ((m_rdy_line_handle 31 4 (fun _ => 255) zeroData edgePins
        (hal_aci_tl_init_state 4)).aci_rx_q.aci_data 0).buffer 0 = 255 ∧
    qsize 4 (m_rdy_line_handle 31 4 (fun _ => 255) zeroData edgePins
        (hal_aci_tl_init_state 4)).aci_rx_q = 1 ∧
    (m_aci_q_peek (m_rdy_line_handle 31 4 (fun _ => 255) zeroData edgePins
        (hal_aci_tl_init_state 4)).aci_rx_q).map (fun d => d.buffer 0) = some 255 := by
  refine ⟨by decide, by decide, by decide, by decide⟩

theorem send_preserves (maxLen N : Nat) (s : TLState) (p : hal_aci_data_t) :
    (hal_aci_tl_send maxLen N s p).2.aci_rx_q = s.aci_rx_q ∧
    (hal_aci_tl_send maxLen N s p).2.eimsk_masked = s.eimsk_masked ∧
    (hal_aci_tl_send maxLen N s p).2.halted = s.halted := by
  unfold hal_aci_tl_send
  dsimp only
  split
  · exact ⟨rfl, rfl, rfl⟩
  · split
    · exact ⟨rfl, rfl, rfl⟩
    · exact ⟨rfl, rfl, rfl⟩

theorem peek_state_edge (maxLen N : Nat) (dev : Nat → Nat) (scratch : hal_aci_data_t)
    (rdynLow : Bool) (s : TLState) :
    (hal_aci_tl_event_peek maxLen N dev scratch edgePins rdynLow s).1 = s := by
  unfold hal_aci_tl_event_peek
  dsimp only
  rw [if_pos (show edgePins.interface_is_interrupt = true from rfl)]
  split <;> rfl

theorem flush_inv (N : Nat) (hN : 2 ≤ N) (s : TLState) :
    (m_aci_q_flush N s).halted = s.halted ∧ QWf N (m_aci_q_flush N s).aci_rx_q ∧
    m_aci_q_is_full N (m_aci_q_flush N s).aci_rx_q = false ∧
    (m_aci_q_flush N s).eimsk_masked = s.eimsk_masked := by
  refine ⟨rfl, ⟨show 0 < N by omega, show 0 < N by omega⟩, ?_, rfl⟩
  show ((0 + 1) % N == 0) = false
  rw [Nat.mod_eq_of_lt (show 0 + 1 < N by omega)]
  rfl

theorem handle_preserves_inv_edge (maxLen N : Nat) (hN : 2 ≤ N) (dev : Nat → Nat)
    (scratch : hal_aci_data_t) (s : TLState)
    (hhalt : s.halted = false) (hwf : QWf N s.aci_rx_q)
    (himp : s.eimsk_masked = false → m_aci_q_is_full N s.aci_rx_q = false)
    (hm : s.eimsk_masked = false) :
    (m_rdy_line_handle maxLen N dev scratch edgePins s).halted = false ∧
    QWf N (m_rdy_line_handle maxLen N dev scratch edgePins s).aci_rx_q ∧
    ((m_rdy_line_handle maxLen N dev scratch edgePins s).eimsk_masked = false →
      m_aci_q_is_full N (m_rdy_line_handle maxLen N dev scratch edgePins s).aci_rx_q
        = false) := by
  have hnotfull := himp hm
  unfold m_rdy_line_handle
  dsimp only
  rw [poll_rx maxLen N dev scratch s]
  by_cases hpos : (hal_aci_tl_poll_get maxLen N dev scratch s).1.received_data.buffer 0 > 0
  · rw [if_pos hpos]
    have hok : (m_aci_q_enqueue N s.aci_rx_q
        (hal_aci_tl_poll_get maxLen N dev scratch s).1.received_data).1 = true := by
      cases hv : (m_aci_q_enqueue N s.aci_rx_q
          (hal_aci_tl_poll_get maxLen N dev scratch s).1.received_data).1 with
      | true => rfl
      | false =>
        have := (enq_fail_iff N s.aci_rx_q _).mp hv
        simp_all
    rw [if_pos hok]
    by_cases hfull : m_aci_q_is_full N (m_aci_q_enqueue N s.aci_rx_q
        (hal_aci_tl_poll_get maxLen N dev scratch s).1.received_data).2 = true
    · rw [if_pos hfull, if_pos (show edgePins.interface_is_interrupt = true from rfl)]
      refine ⟨hhalt, enq_wf N s.aci_rx_q _ (by omega) hwf, fun h => ?_⟩
      exact absurd (show (true : Bool) = false from h) (by simp)
    · rw [if_neg hfull]
      refine ⟨hhalt, enq_wf N s.aci_rx_q _ (by omega) hwf, fun _ => ?_⟩
      show m_aci_q_is_full N (m_aci_q_enqueue N s.aci_rx_q
        (hal_aci_tl_poll_get maxLen N dev scratch s).1.received_data).2 = false
      cases hb : m_aci_q_is_full N (m_aci_q_enqueue N s.aci_rx_q
          (hal_aci_tl_poll_get maxLen N dev scratch s).1.received_data).2 with
      | false => rfl
      | true => exact absurd hb hfull
  · rw [if_neg hpos]
    exact ⟨hhalt, hwf, fun _ => hnotfull⟩

theorem get_preserves_inv_edge (maxLen N : Nat) (hN : 2 ≤ N) (dev : Nat → Nat)
    (scratch : hal_aci_data_t) (rdynLow : Bool) (s : TLState)
    (hhalt : s.halted = false) (hwf : QWf N s.aci_rx_q)
    (himp : s.eimsk_masked = false → m_aci_q_is_full N s.aci_rx_q = false) :
    (hal_aci_tl_event_get maxLen N dev scratch edgePins rdynLow s).1.halted = false ∧
    QWf N (hal_aci_tl_event_get maxLen N dev scratch edgePins rdynLow s).1.aci_rx_q ∧
    ((hal_aci_tl_event_get maxLen N dev scratch edgePins rdynLow s).1.eimsk_masked = false →
      m_aci_q_is_full N
        (hal_aci_tl_event_get maxLen N dev scratch edgePins rdynLow s).1.aci_rx_q
          = false) := by
  unfold hal_aci_tl_event_get
  dsimp only
  rw [if_pos (show edgePins.interface_is_interrupt = true from rfl),
    if_neg (by rw [hhalt]; simp)]
  cases hv : (m_aci_q_dequeue N s.aci_rx_q).2 with
  | none =>
    dsimp only
    exact ⟨hhalt, hwf, himp⟩
  | some x =>
    dsimp only
    rw [show edgePins.interface_is_interrupt = true from rfl, Bool.and_true]
    have hwf' := deq_wf N s.aci_rx_q (by omega) hwf
    obtain ⟨hsz', hpos⟩ := deq_some_qsize N s.aci_rx_q x hwf hv
    by_cases hfull : m_aci_q_is_full N s.aci_rx_q = true
    · rw [if_pos hfull]
      refine ⟨hhalt, hwf', fun _ => ?_⟩
      have hsz := (is_full_iff N s.aci_rx_q hN hwf).mp hfull
      cases hb : m_aci_q_is_full N (m_aci_q_dequeue N s.aci_rx_q).1 with
      | false => rfl
      | true =>
        have := (is_full_iff N _ hN hwf').mp hb
        omega
    · rw [if_neg hfull]
      refine ⟨hhalt, hwf', fun hm => ?_⟩
      have hnf := himp hm
      have hq := qsize_lt N s.aci_rx_q (by omega)
      have hne : qsize N s.aci_rx_q ≠ N - 1 := by
        intro he
        exact absurd ((is_full_iff N s.aci_rx_q hN hwf).mpr he) (by simp [hnf])
      cases hb : m_aci_q_is_full N (m_aci_q_dequeue N s.aci_rx_q).1 with
      | false => rfl
      | true =>
        have := (is_full_iff N _ hN hwf').mp hb
        omega

theorem edge_inv (maxLen N : Nat) (hN : 2 ≤ N) :
    ∀ s : TLState, EdgeReach maxLen N s →
      s.halted = false ∧ QWf N s.aci_rx_q ∧
      (s.eimsk_masked = false → m_aci_q_is_full N s.aci_rx_q = false) := by
  intro s h
  induction h with
  | start =>
    refine ⟨rfl, ⟨show 0 < N by omega, show 0 < N by omega⟩, fun _ => ?_⟩
    show ((0 + 1) % N == 0) = false
    rw [Nat.mod_eq_of_lt (show 0 + 1 < N by omega)]
    rfl
  | send s' p _ ih =>
    obtain ⟨h1, h2, h3⟩ := ih
    obtain ⟨e1, e2, e3⟩ := send_preserves maxLen N s' p
    rw [e1, e2, e3]
    exact ⟨h1, h2, h3⟩
  | handle s' dev scratch _ hm ih =>
    obtain ⟨h1, h2, h3⟩ := ih
    exact handle_preserves_inv_edge maxLen N hN dev scratch s' h1 h2 h3 hm
  | get s' dev scratch rdynLow _ ih =>
    obtain ⟨h1, h2, h3⟩ := ih
    exact get_preserves_inv_edge maxLen N hN dev scratch rdynLow s' h1 h2 h3
  | peek s' dev scratch rdynLow _ ih =>
    rw [peek_state_edge maxLen N dev scratch rdynLow s']
    exact ih
  | flush s' _ ih =>
    obtain ⟨h1, h2, h3⟩ := ih
    obtain ⟨f1, f2, f3, f4⟩ := flush_inv N hN s'
    rw [f1, f4]
    exact ⟨h1, f2, fun _ => f3⟩

/-- C8: in edge-interrupt mode, under the flow-control discipline that
the ready-line handler only fires while the interrupt is unmasked, no
reachable state is halted — in particular, running the handler from any
reachable unmasked state never takes the fatal full-incoming-queue
branch. -/
theorem c8_fatal_branch_unreachable (maxLen N : Nat) (s : TLState) (hN : 2 ≤ N)
    (h : EdgeReach maxLen N s) :
    s.halted = false ∧
    (∀ (dev : Nat → Nat) (scratch : hal_aci_data_t), s.eimsk_masked = false →
      (m_rdy_line_handle maxLen N dev scratch edgePins s).halted = false) :=
  ⟨(edge_inv maxLen N hN s h).1,
   fun dev scratch hm =>
     (edge_inv maxLen N hN _ (EdgeReach.handle s dev scratch h hm)).1⟩

theorem c8_witness :
    2 ≤ 4 ∧ (hal_aci_tl_init_state 4).halted = false :=
  ⟨by decide,
   (c8_fatal_branch_unreachable 31 4 (hal_aci_tl_init_state 4) (by decide)
      EdgeReach.start).1⟩
